import Mathlib

/-!
Video metadata catalog of the Qt player (`src/player.cpp`)

Shallow embedding of the catalog code of `Player::showInfoDialog`,
`Player::saveChanges` and `Player::createHTML`, and of the duration label of
`Player::durationChanged` and `Player::updateDurationInfo`.

* A `QString` is a list of characters, a `QStringList` a list of strings.
* The backing file `DataQt.txt` is its text; the functions that read or write
  it take the text and return the new text.
* `QList::at(i)` and `operator[](i)` are only defined for an index in range;
  an access out of range is the result `none`.
* Durations and positions are natural numbers: the player reports neither as
  negative, and below a day no product of the code leaves the range of `qint64`.
-/

namespace Player

abbrev QString := List Char

abbrev QStringList := List QString

/-- A store: the records of the catalog, in file order. -/
abbrev Store := List QStringList

/-- Modelled from the spec: the list `metadata` of attribute names, declared in
`player.h` (not among the sources). The code uses `metadata.count()` as the
number of fields of a record and `metadata[row]` as the tag asked from the
media object. -/
def metadata : QStringList :=
  ["Title".toList, "Author".toList, "Description".toList, "Genre".toList,
   "Year".toList, "Date".toList, "UserRating".toList, "Language".toList,
   "Director".toList, "Writer".toList, "Copyright".toList, "Size".toList,
   "MediaType".toList, "Duration".toList]

/-- The text in `line` after `while(!stream.atEnd()) line += stream.readLine();`:
`QTextStream::readLine` returns the next line without its terminator (a line
feed, or a carriage return directly followed by a line feed), so the loop
leaves the characters of the stream with every line terminator removed. -/
def readAllLines : List Char → List Char
  | [] => []
  | c :: rest =>
    if c = '\n' then readAllLines rest
    else if c = '\r' ∧ rest.head? = some '\n' then readAllLines rest
    else c :: readAllLines rest

/-- The parts of a string between the occurrences of a separator,
`QString::split(sep)` with the default `KeepEmptyParts`: the empty string
gives one empty part, and a string ending in the separator a last empty part. -/
def split (sep : Char) : List Char → List (List Char)
  | [] => [[]]
  | c :: rest =>
    if c = sep then [] :: split sep rest
    else
      match split sep rest with
      | [] => [[c]]
      | seg :: segs => (c :: seg) :: segs

/-- The list `videoList = line.split("/")` of the joined lines of the file. -/
def videoListOf (text : List Char) : QStringList :=
  split '/' (readAllLines text)

/-- The bound `count = videoList.count() - 1` of the loops over the records:
the last part of the split is not a record. -/
def count (videoList : QStringList) : Nat :=
  videoList.length - 1

/-- The record segments `videoList.at(k)` for `0 <= k < count`. -/
def segments (text : List Char) : QStringList :=
  (videoListOf text).take (count (videoListOf text))

/-- Runs a fallible step on every element in order; fails as soon as one fails. -/
def forEach {α β : Type} (f : α → Option β) : List α → Option (List β)
  | [] => some []
  | a :: as =>
    match f a with
    | none => none
    | some b => (forEach f as).map (fun bs => b :: bs)

/-- The reads `videoProps.at(i)` for the indices `i` of a loop, in order. -/
def atAll (videoProps : QStringList) (indices : List Nat) : Option QStringList :=
  forEach (fun i => videoProps[i]?) indices

/-- The cells of one record as the loops `for (i = 0; i < metadata.count(); i++)`
read them: `videoProps = videoList.at(k).split(";")`, then `videoProps.at(i)`. -/
def readRecord (segment : QString) : Option QStringList :=
  atAll (split ';' segment) (List.range metadata.length)

/-- The records that `createHTML` reads from the file (lines 598-613):
one per segment `k < count`, each the cells `at(0)` to `at(13)`. -/
def readRecords (text : List Char) : Option Store :=
  forEach readRecord (segments text)

/-- The characters `stream << field << ";"` for every field, then
`stream << "/" << endl` (lines 549-552, 559-562 and 568-573). -/
def recordText (fields : QStringList) : List Char :=
  (fields.map (fun f => f ++ [';'])).flatten

/-- One record of the file: its fields, then the terminator and a line feed. -/
def recordLine (fields : QStringList) : List Char :=
  recordText fields ++ ['/', '\n']

/-- The file text written for a list of records, one `recordLine` each. -/
def saveText (S : Store) : List Char :=
  (S.map recordLine).flatten

/-- The search loop `for (k = 0; k < count && !inBase; k++)` of
`showInfoDialog` (446-451) and `saveChanges` (534-537): the index `k` and the
split `videoProps` of the first segment whose part 0 equals `property`;
`none` when the loop ends with `inBase` still false. The split of a string is
never empty, so `videoProps.at(0)` is in range. -/
def findInBase (property : QString) : QStringList → Nat → Option (Nat × QStringList)
  | [], _ => none
  | segment :: rest, k =>
    if (split ';' segment).head? = some property then some (k, split ';' segment)
    else findInBase property rest (k + 1)

/-- The value of `videoProps` after the search loop when nothing matched: the
split of the last segment, or the empty list when there was no segment. -/
def lastProps (segs : QStringList) : QStringList :=
  match segs.getLast? with
  | none => []
  | some segment => split ';' segment

/-- The value shown for a tag by lines 472-476: the text of
`m_player->metaData(name)`, replaced by `"null"` when its length is 0. The
media object is a function from tag names to an optional text; an absent tag
is an invalid `QVariant`, whose text is empty. -/
def liveValue (live : QString → Option QString) (name : QString) : QString :=
  if ((live name).getD []).length = 0 then "null".toList else (live name).getD []

/-- The column of values that the loop of lines 469-479 puts in the table. -/
def liveRecord (live : QString → Option QString) : QStringList :=
  metadata.map (liveValue live)

/-- The values in column 1 of the table when `showInfoDialog` returns.
`file` is the text of `DataQt.txt`, `none` when the file does not exist. -/
def showInfoDialog (file : Option (List Char)) (live : QString → Option QString) :
    Option QStringList :=
  match file with
  | none => some (liveRecord live)
  | some text =>
    match findInBase ((live (metadata.headD [])).getD []) (segments text) 0 with
    | some (_, videoProps) => atAll videoProps (List.range metadata.length)
    | none =>
      match atAll (lastProps (segments text)) (List.range metadata.length) with
      | none => none
      | some _ => some (liveRecord live)

/-- The assignments `videoProps[i] = m_pTableWidget->item(i,1)->text()` for the
indices of the loop of lines 538-541. -/
def assignProps (table : QStringList) : List Nat → QStringList → Option QStringList
  | [], videoProps => some videoProps
  | i :: is, videoProps =>
    match table[i]? with
    | none => none
    | some v =>
      if i < videoProps.length then assignProps table is (videoProps.set i v) else none

/-- One record written by the loops of lines 549-552 and 558-562. -/
def writeRecord (videoProps : QStringList) : Option (List Char) :=
  (atAll videoProps (List.range metadata.length)).map recordLine

/-- The text of `DataQt.txt` after `saveChanges`, from its text before (empty
when the file did not exist: `ReadWrite` creates it) and the texts `table` of
the items in column 1 of the table. -/
def saveChanges (text : List Char) (table : QStringList) : Option (List Char) :=
  match table[0]? with
  | none => none
  | some property =>
    match findInBase property (segments text) 0 with
    | some (k, videoProps) =>
      match assignProps table (List.range' 1 (metadata.length - 1)) videoProps with
      | none => none
      | some updated =>
        match writeRecord updated with
        | none => none
        | some first =>
          (forEach (fun segment => writeRecord (split ';' segment))
            ((segments text).eraseIdx k)).map (fun others => first ++ others.flatten)
    | none =>
      (atAll table (List.range metadata.length)).map (fun fields => text ++ recordLine fields)

/-- The store read back from the file after `saveChanges` ran on the file that
holds the records of `S`. -/
def upsert (S : Store) (r : QStringList) : Option Store :=
  (saveChanges (saveText S) r).bind readRecords

/-- The text that `createHTML` writes before the rows (lines 603-605); the
braces of the style sheet are written as character codes. -/
def htmlHead : List Char :=
  "<!doctypehtml><style>table\x7bfont-family:arial,sans-serif;text-align:left;width:100%\x7dtd,th\x7bborder:1px solid #ddd;padding:8px\x7d".toList
  ++ "tr:nth-child(even)\x7bbackground-color:#ddd\x7d</style><table><tr><th>Title<th>Author<th>Description<th>Genre<th>Year<th>Date<th>".toList
  ++ "UserRating<th>Language<th>Director<th>Writer<th>Copytight<th>Size<th>MediaType<th>Duration".toList

/-- What the body of the loop over `k` writes for one record (lines 611-616):
a cell per field, then the closing row tag. -/
def rowText (cells : QStringList) : List Char :=
  (cells.map (fun c => "  \t<td>".toList ++ c ++ "</td>\n".toList)).flatten
    ++ "  </tr>\n".toList

/-- The text of `Index.html` written by `createHTML` from the text of
`DataQt.txt` (empty when the file cannot be read). -/
def createHTML (text : List Char) : Option (List Char) :=
  (readRecords text).map (fun records =>
    htmlHead ++ "  <tr>\n".toList ++ (records.map rowText).flatten ++ "</table>".toList)

/-- The number of positions of a text at which a pattern starts. -/
def countOcc (pat : List Char) : List Char → Nat
  | [] => 0
  | c :: rest => (if pat.isPrefixOf (c :: rest) then 1 else 0) + countOcc pat rest

/-- A text without the white space at its end. -/
def trimEnd (s : List Char) : List Char :=
  (s.reverse.dropWhile Char.isWhitespace).reverse

/-- The texts of the cells that a tag opens in a document: after every
occurrence of the tag, the characters up to the next tag, trimmed. -/
def cellsAfter (tag : List Char) : List Char → List QString
  | [] => []
  | c :: rest =>
    if tag.isPrefixOf (c :: rest) then
      trimEnd (((c :: rest).drop tag.length).takeWhile (fun d => d != '<')) :: cellsAfter tag rest
    else cellsAfter tag rest


/-- A field value that the file format can hold: none of the three characters
the format gives a meaning to. -/
def SepFree (f : QString) : Prop :=
  '/' ∉ f ∧ ';' ∉ f ∧ '\n' ∉ f

/-- A record of `metadata.count()` fields, each free of separators. -/
def WellFormedRecord (r : QStringList) : Prop :=
  r.length = metadata.length ∧ ∀ f ∈ r, SepFree f

/-- A store of well-formed records. -/
def WellFormed (S : Store) : Prop :=
  ∀ r ∈ S, WellFormedRecord r


instance (f : QString) : Decidable (SepFree f) := by
  unfold SepFree
  infer_instance

instance (r : QStringList) : Decidable (WellFormedRecord r) := by
  unfold WellFormedRecord
  infer_instance

instance (S : Store) : Decidable (WellFormed S) := by
  unfold WellFormed
  infer_instance

/-! ### Sample records -/

def matrixRecord : QStringList :=
  ["Matrix".toList, "Wachowski".toList, "Hacker".toList, "SciFi".toList, "1999".toList,
   "1999-03-31".toList, "9".toList, "en".toList, "Wachowski".toList, "Wachowski".toList,
   "WB".toList, "700".toList, "video".toList, "8160".toList]

def matrixEdited : QStringList :=
  ["Matrix".toList, "NewAuthor".toList, "Hacker".toList, "SciFi".toList, "1999".toList,
   "1999-03-31".toList, "9".toList, "en".toList, "Wachowski".toList, "Wachowski".toList,
   "WB".toList, "700".toList, "video".toList, "8160".toList]

def alienRecord : QStringList :=
  ["Alien".toList, "Scott".toList, "Ship".toList, "Horror".toList, "1979".toList,
   "1979-05-25".toList, "8".toList, "en".toList, "Scott".toList, "OBannon".toList,
   "Fox".toList, "650".toList, "video".toList, "7020".toList]

/-- An edited record whose description holds a field separator. -/
def matrixSemicolon : QStringList :=
  ["Matrix".toList, "Wachowski".toList, "Hacker; chosen one".toList, "SciFi".toList,
   "1999".toList, "1999-03-31".toList, "9".toList, "en".toList, "Wachowski".toList,
   "Wachowski".toList, "WB".toList, "700".toList, "video".toList, "8160".toList]

/-- An edited record whose date holds the record separator. -/
def matrixSlash : QStringList :=
  ["Matrix".toList, "Wachowski".toList, "Hacker".toList, "SciFi".toList, "1999".toList,
   "1999/03/31".toList, "9".toList, "en".toList, "Wachowski".toList, "Wachowski".toList,
   "WB".toList, "700".toList, "video".toList, "8160".toList]

/-- A file whose only record has 13 of the 14 fields. -/
def thirteenFields : List Char :=
  "a;b;c;d;e;f;g;h;i;j;k;l;m;/\n".toList

/-- A file whose only record has 15 fields. -/
def fifteenFields : List Char :=
  "a;b;c;d;e;f;g;h;i;j;k;l;m;n;o;/\n".toList

/-- A media object whose only tag is the title `Matrix`. -/
def matrixPlaying (name : QString) : Option QString :=
  if name = "Title".toList then some "Matrix".toList else none

/-- A media object without a `Director` tag. -/
def noDirector (name : QString) : Option QString :=
  if name = "Director".toList then none else some ("x".toList ++ name)

/-! ### The duration label (`durationChanged`, `updateDurationInfo`) -/

/-- A time of day as `QTime(h, m, s, ms)` builds it. -/
structure QTime where
  h : Nat
  m : Nat
  s : Nat
  ms : Nat

/-- The validity test of `QTime`: hours below 24, minutes and seconds below 60,
milliseconds below 1000. -/
def QTime.isValid (t : QTime) : Bool :=
  decide (t.h < 24) && decide (t.m < 60) && decide (t.s < 60) && decide (t.ms < 1000)

/-- A number written with two decimal digits, as the format expressions `hh`,
`mm` and `ss` write a number below 100. -/
def twoDigits (n : Nat) : List Char :=
  [Nat.digitChar (n / 10 % 10), Nat.digitChar (n % 10)]

/-- The format expressions `hh`, `mm` and `ss` of `QTime::toString` replaced by
the two-digit hour, minute and second; every other character is copied. These
are the expressions that the two format strings of `updateDurationInfo` use. -/
def formatTime (t : QTime) : List Char → List Char
  | [] => []
  | [c] => [c]
  | c :: d :: rest =>
    if c = 'h' ∧ d = 'h' then twoDigits t.h ++ formatTime t rest
    else if c = 'm' ∧ d = 'm' then twoDigits t.m ++ formatTime t rest
    else if c = 's' ∧ d = 's' then twoDigits t.s ++ formatTime t rest
    else c :: formatTime t (d :: rest)

/-- The text `QTime::toString(format)`: empty for a time that is not valid. -/
def QTime.toString (t : QTime) (format : List Char) : QString :=
  if t.isValid then formatTime t format else []

/-- The field `m_duration` after `durationChanged(duration)` (line 206), the
duration being in milliseconds and not negative. -/
def durationChanged (duration : Nat) : Nat :=
  duration / 1000

/-- The text that `updateDurationInfo(currentInfo)` puts in the label (lines
355-366), for a duration `m_duration` and a position `currentInfo` in seconds,
neither negative. -/
def updateDurationInfo (m_duration currentInfo : Nat) : QString :=
  if currentInfo ≠ 0 ∨ m_duration ≠ 0 then
    (QTime.mk ((currentInfo / 3600) % 60) ((currentInfo / 60) % 60) (currentInfo % 60)
        ((currentInfo * 1000) % 1000)).toString
        (if m_duration > 3600 then "hh:mm:ss".toList else "mm:ss".toList)
      ++ " / ".toList
      ++ (QTime.mk ((m_duration / 3600) % 60) ((m_duration / 60) % 60) (m_duration % 60)
        ((m_duration * 1000) % 1000)).toString
        (if m_duration > 3600 then "hh:mm:ss".toList else "mm:ss".toList)
  else []

/-- The text after the first occurrence of a separator, if there is one. -/
def afterSep (sep : List Char) : List Char → Option (List Char)
  | [] => none
  | c :: rest =>
    if sep.isPrefixOf (c :: rest) then some ((c :: rest).drop sep.length)
    else afterSep sep rest

/-- The value of a decimal digit. -/
def digitValue (c : Char) : Option Nat :=
  if '0' ≤ c ∧ c ≤ '9' then some (c.toNat - '0'.toNat) else none

/-- The number that a non-empty text of decimal digits denotes. -/
def readNumber (s : List Char) : Option Nat :=
  if s = [] then none
  else s.foldl (fun acc c => acc.bind (fun n => (digitValue c).map (fun v => 10 * n + v)))
    (some 0)

/-- The seconds that a text `minutes:seconds` or `hours:minutes:seconds`
denotes, the hours being 0 in the first form. -/
def readClock (s : List Char) : Option Nat :=
  match (split ':' s).map readNumber with
  | [some m, some sec] => some (m * 60 + sec)
  | [some h, some m, some sec] => some (h * 3600 + m * 60 + sec)
  | _ => none

/-- The seconds denoted by the total-time part of a label, the text after the
separator of the two times. -/
def totalSeconds (label : QString) : Option Nat :=
  (afterSep " / ".toList label).bind readClock

/-! ### Lemmas -/

theorem metadata_length : metadata.length = 14 := rfl

theorem split_ne_nil (sep : Char) (s : List Char) : split sep s ≠ [] := by
  cases s with
  | nil => simp [split]
  | cons c rest =>
    unfold split
    split_ifs
    · simp
    · split <;> simp

theorem split_append_sep {sep : Char} {f : List Char} (h : sep ∉ f) (g : List Char) :
    split sep (f ++ sep :: g) = f :: split sep g := by
  induction f with
  | nil => simp [split]
  | cons c f ih =>
    have hc : c ≠ sep := fun e => h (by simp [e])
    have hf : sep ∉ f := fun e => h (by simp [e])
    simp [split, hc, ih hf]

theorem readAllLines_append {f g : List Char} (hf : '\n' ∉ f) (hg : g.head? ≠ some '\n') :
    readAllLines (f ++ g) = f ++ readAllLines g := by
  induction f with
  | nil => rfl
  | cons c f ih =>
    have hc : c ≠ '\n' := fun e => hf (by simp [e])
    have hf2 : '\n' ∉ f := fun e => hf (by simp [e])
    have hh : (f ++ g).head? ≠ some '\n' := by
      cases f with
      | nil => simpa using hg
      | cons d f => 
        intro e
        apply hf2
        simp at e
        simp [e]
    rw [List.cons_append, readAllLines, if_neg hc, if_neg (fun h => hh h.2), ih hf2]
    rfl


theorem recordText_cons (f : QString) (r : QStringList) :
    recordText (f :: r) = f ++ ';' :: recordText r := by
  simp [recordText]

theorem not_mem_recordText {c : Char} (hc : c ≠ ';') {r : QStringList}
    (h : ∀ f ∈ r, c ∉ f) : c ∉ recordText r := by
  induction r with
  | nil => simp [recordText]
  | cons f r ih =>
    rw [recordText_cons]
    intro hm
    rcases List.mem_append.1 hm with h1 | h1
    · exact h f (by simp) h1
    · rcases List.mem_cons.1 h1 with h2 | h2
      · exact hc h2
      · exact ih (fun g hg => h g (by simp [hg])) h2

theorem split_recordText {r : QStringList} (h : ∀ f ∈ r, ';' ∉ f) :
    split ';' (recordText r) = r ++ [[]] := by
  induction r with
  | nil => rfl
  | cons f r ih =>
    rw [recordText_cons, split_append_sep (h f (by simp)), ih (fun g hg => h g (by simp [hg]))]
    rfl

theorem forEach_some {α β : Type} {f : α → Option β} {g : α → β} {l : List α}
    (h : ∀ a ∈ l, f a = some (g a)) : forEach f l = some (l.map g) := by
  induction l with
  | nil => rfl
  | cons a l ih =>
    simp [forEach, h a (by simp), ih (fun b hb => h b (by simp [hb]))]

theorem forEach_map {α β γ : Type} (f : β → Option γ) (g : α → β) (l : List α) :
    forEach f (l.map g) = forEach (fun a => f (g a)) l := by
  induction l with
  | nil => rfl
  | cons a l ih => simp [forEach, ih]

theorem atAll_range' (l : QStringList) :
    ∀ n s, s + n ≤ l.length → atAll l (List.range' s n) = some ((l.drop s).take n) := by
  intro n
  induction n with
  | zero => intro s _; simp [atAll, forEach]
  | succ n ih =>
    intro s hs
    have hlt : s < l.length := by omega
    have h1 := ih (s + 1) (by omega)
    unfold atAll at h1 ⊢
    rw [List.range'_succ, forEach, List.getElem?_eq_getElem hlt]
    simp only [h1, Option.map_some']
    rw [List.drop_eq_getElem_cons hlt, List.take_succ_cons]

theorem atAll_range {l : QStringList} {n : Nat} (h : n ≤ l.length) :
    atAll l (List.range n) = some (l.take n) := by
  rw [List.range_eq_range', atAll_range' l n 0 (by omega)]
  simp

theorem readRecord_recordText {r : QStringList} (hr : WellFormedRecord r) :
    readRecord (recordText r) = some r := by
  unfold readRecord
  rw [split_recordText (fun f hf => (hr.2 f hf).2.1), atAll_range (by simp [hr.1])]
  rw [← hr.1]
  simp


theorem saveText_cons (r : QStringList) (S : Store) :
    saveText (r :: S) = recordText r ++ '/' :: '\n' :: saveText S := by
  simp [saveText, recordLine]

theorem WellFormed.head {r : QStringList} {S : Store} (h : WellFormed (r :: S)) :
    WellFormedRecord r :=
  h r (by simp)

theorem WellFormed.tail {r : QStringList} {S : Store} (h : WellFormed (r :: S)) :
    WellFormed S :=
  fun q hq => h q (by simp [hq])

/-- The split of the joined lines of a written file: the record texts, then
the empty remainder after the last terminator. -/
theorem videoListOf_saveText {S : Store} (h : WellFormed S) :
    videoListOf (saveText S) = S.map recordText ++ [[]] := by
  unfold videoListOf
  induction S with
  | nil => rfl
  | cons r S ih =>
    have hr := h.head
    have hn : '\n' ∉ recordText r :=
      not_mem_recordText (by decide) (fun f hf => (hr.2 f hf).2.2)
    have hs : '/' ∉ recordText r :=
      not_mem_recordText (by decide) (fun f hf => (hr.2 f hf).1)
    rw [saveText_cons, readAllLines_append hn (by simp)]
    have e : readAllLines ('/' :: '\n' :: saveText S) = '/' :: readAllLines (saveText S) := by
      simp [readAllLines]
    rw [e, split_append_sep hs, ih h.tail]
    rfl

theorem segments_saveText {S : Store} (h : WellFormed S) :
    segments (saveText S) = S.map recordText := by
  unfold segments count
  rw [videoListOf_saveText h]
  simp

theorem readRecords_saveText {S : Store} (h : WellFormed S) :
    readRecords (saveText S) = some S := by
  unfold readRecords
  rw [segments_saveText h, forEach_map]
  have := forEach_some (f := fun a => readRecord (recordText a)) (g := id) (l := S)
    (fun a ha => readRecord_recordText (h a ha))
  simpa using this


theorem head?_split_recordText {r : QStringList} (hr : WellFormedRecord r) :
    (split ';' (recordText r)).head? = r.head? := by
  rw [split_recordText (fun f hf => (hr.2 f hf).2.1)]
  cases r with
  | nil => simp [WellFormedRecord, metadata_length] at hr
  | cons f r => rfl

theorem findInBase_none {p : QString} {S : Store} (h : WellFormed S)
    (hno : ∀ a ∈ S, a.head? ≠ some p) (k : Nat) :
    findInBase p (S.map recordText) k = none := by
  induction S generalizing k with
  | nil => rfl
  | cons a S ih =>
    rw [List.map_cons, findInBase, head?_split_recordText h.head, if_neg (hno a (by simp))]
    exact ih h.tail (fun b hb => hno b (by simp [hb])) (k + 1)

theorem findInBase_match {p : QString} {A B : Store} {q : QStringList}
    (h : WellFormed (A ++ q :: B)) (hq : q.head? = some p)
    (hno : ∀ a ∈ A, a.head? ≠ some p) (k : Nat) :
    findInBase p ((A ++ q :: B).map recordText) k = some (k + A.length, q ++ [[]]) := by
  induction A generalizing k with
  | nil =>
    have hw : WellFormedRecord q := h q (by simp)
    rw [List.nil_append, List.map_cons, findInBase, head?_split_recordText hw, if_pos hq,
      split_recordText (fun f hf => (hw.2 f hf).2.1)]
    rfl
  | cons a A ih =>
    have hw : WellFormedRecord a := h a (by simp)
    rw [List.cons_append, List.map_cons, findInBase, head?_split_recordText hw,
      if_neg (hno a (by simp))]
    rw [ih (fun b hb => h b (by simp at hb ⊢; tauto)) (fun b hb => hno b (by simp [hb])) (k + 1)]
    simp only [List.length_cons]
    congr 2
    omega

theorem assignProps_spec (table : QStringList) :
    ∀ (idxs : List Nat) (vp : QStringList),
      (∀ i ∈ idxs, i < table.length ∧ i < vp.length) →
      ∃ out, assignProps table idxs vp = some out ∧ out.length = vp.length ∧
        ∀ j, out[j]? = if j ∈ idxs then table[j]? else vp[j]? := by
  intro idxs
  induction idxs with
  | nil => intro vp _; exact ⟨vp, rfl, rfl, by simp⟩
  | cons i is ih =>
    intro vp h
    have hi := h i (by simp)
    obtain ⟨out, h1, h2, h3⟩ := ih (vp.set i table[i]) (fun j hj => by
      have := h j (by simp [hj])
      simp only [List.length_set]
      exact this)
    refine ⟨out, ?_, ?_, ?_⟩
    · rw [assignProps, List.getElem?_eq_getElem hi.1]
      simp only [hi.2, if_true]
      exact h1
    · simpa using h2
    · intro j
      rw [h3 j]
      by_cases hj : j ∈ is
      · simp [hj]
      · by_cases hij : j = i
        · subst hij
          simp [hj, List.getElem?_set, hi.2, List.getElem?_eq_getElem hi.1]
        · have hij2 : i ≠ j := fun e => hij e.symm
          simp [hj, hij, List.getElem?_set, hij2]


theorem writeRecord_of_take {vp table : QStringList} (hl : metadata.length ≤ vp.length)
    (ht : vp.take metadata.length = table) : writeRecord vp = some (recordLine table) := by
  unfold writeRecord
  rw [atAll_range hl, ht]
  rfl

theorem writeRecord_split_recordText {r : QStringList} (hr : WellFormedRecord r) :
    writeRecord (split ';' (recordText r)) = some (recordLine r) := by
  have := readRecord_recordText hr
  unfold readRecord at this
  unfold writeRecord
  rw [this]
  rfl

/-- The record written first on a match: the split of the matched segment with
parts 1 to 13 replaced by the table texts. Its first 14 parts are the table
texts, since part 0 already equals the text of table item 0. -/
theorem assignProps_matched {q table : QStringList} (hq : WellFormedRecord q)
    (ht : table.length = metadata.length) (hh : q.head? = table.head?) :
    ∃ upd, assignProps table (List.range' 1 (metadata.length - 1)) (q ++ [[]]) = some upd ∧
      metadata.length ≤ upd.length ∧ upd.take metadata.length = table := by
  have hql : q.length = 14 := hq.1
  have htl : table.length = 14 := ht
  obtain ⟨upd, h1, h2, h3⟩ := assignProps_spec table (List.range' 1 (metadata.length - 1))
    (q ++ [[]]) (fun i hi => by
      simp only [metadata_length, List.mem_range'_1] at hi
      simp only [List.length_append, List.length_singleton]
      omega)
  have hlen : upd.length = 15 := by simp [h2, hql]
  refine ⟨upd, h1, by simp [hlen, metadata_length], ?_⟩
  apply List.ext_getElem?
  intro j
  rw [metadata_length, List.getElem?_take]
  by_cases hj : j < 14
  · rw [if_pos hj, h3 j]
    by_cases hj0 : j = 0
    · subst hj0
      have : (0 : Nat) ∉ List.range' 1 (metadata.length - 1) := by simp
      rw [if_neg this]
      have e1 : (q ++ [[]])[0]? = q.head? := by
        cases q with
        | nil => simp at hql
        | cons f q => simp
      rw [e1, hh, List.head?_eq_getElem?]
    · have : j ∈ List.range' 1 (metadata.length - 1) := by
        simp only [metadata_length, List.mem_range'_1]
        omega
      rw [if_pos this]
  · rw [if_neg hj]
    symm
    apply List.getElem?_eq_none
    omega

theorem forEach_writeRecord {S : Store} (h : WellFormed S) :
    forEach (fun segment => writeRecord (split ';' segment)) (S.map recordText)
      = some (S.map recordLine) := by
  rw [forEach_map]
  exact forEach_some (fun a ha => writeRecord_split_recordText (h a ha))

theorem saveChanges_match {A B : Store} {q r : QStringList}
    (h : WellFormed (A ++ q :: B)) (hr : r.length = metadata.length)
    (hq : q.head? = r.head?) (hno : ∀ a ∈ A, a.head? ≠ r.head?) :
    saveChanges (saveText (A ++ q :: B)) r = some (saveText (r :: (A ++ B))) := by
  have hr14 : r.length = 14 := hr
  obtain ⟨p, rest, rfl⟩ : ∃ p rest, r = p :: rest := by
    cases r with
    | nil => simp at hr14
    | cons p rest => exact ⟨p, rest, rfl⟩
  have hw : WellFormedRecord q := h q (by simp)
  have hAB : WellFormed (A ++ B) := fun a ha => h a (by simp at ha ⊢; tauto)
  obtain ⟨upd, h1, h2, h3⟩ := assignProps_matched hw hr hq
  unfold saveChanges
  simp only [List.getElem?_cons_zero, segments_saveText h]
  rw [findInBase_match h (by simpa using hq) (by simpa using hno) 0]
  simp only [h1, writeRecord_of_take h2 h3]
  have e : ((A ++ q :: B).map recordText).eraseIdx (0 + A.length)
      = (A ++ B).map recordText := by
    rw [Nat.zero_add, List.map_append, List.map_cons,
      List.eraseIdx_append_of_length_le (by simp)]
    simp
  rw [e, forEach_writeRecord hAB]
  simp [saveText]

theorem saveChanges_nomatch {S : Store} {r : QStringList}
    (h : WellFormed S) (hr : r.length = metadata.length)
    (hno : ∀ a ∈ S, a.head? ≠ r.head?) :
    saveChanges (saveText S) r = some (saveText (S ++ [r])) := by
  have hr14 : r.length = 14 := hr
  obtain ⟨p, rest, rfl⟩ : ∃ p rest, r = p :: rest := by
    cases r with
    | nil => simp at hr14
    | cons p rest => exact ⟨p, rest, rfl⟩
  unfold saveChanges
  simp only [List.getElem?_cons_zero, segments_saveText h]
  rw [findInBase_none h (by simpa using hno) 0]
  simp only []
  rw [atAll_range (by simp [hr]), ← hr, List.take_length]
  simp [saveText]

theorem upsert_match {A B : Store} {q r : QStringList}
    (h : WellFormed (A ++ q :: B)) (hr : WellFormedRecord r)
    (hq : q[0]? = r[0]?) (hno : ∀ a ∈ A, a[0]? ≠ r[0]?) :
    upsert (A ++ q :: B) r = some (r :: (A ++ B)) := by
  unfold upsert
  simp only [← List.head?_eq_getElem?] at hq hno
  rw [saveChanges_match h hr.1 hq hno, Option.some_bind]
  apply readRecords_saveText
  intro a ha
  rcases List.mem_cons.1 ha with e | ha
  · exact e ▸ hr
  · exact h a (by simp at ha ⊢; tauto)

theorem upsert_nomatch {S : Store} {r : QStringList}
    (h : WellFormed S) (hr : WellFormedRecord r) (hno : ∀ a ∈ S, a[0]? ≠ r[0]?) :
    upsert S r = some (S ++ [r]) := by
  unfold upsert
  simp only [← List.head?_eq_getElem?] at hno
  rw [saveChanges_nomatch h hr.1 hno, Option.some_bind]
  apply readRecords_saveText
  intro a ha
  rcases List.mem_append.1 ha with ha | ha
  · exact h a ha
  · simp at ha
    exact ha ▸ hr

/-- The parts read for the table from the split of a written record. -/
theorem atAll_written {q : QStringList} (hq : WellFormedRecord q) :
    atAll (q ++ [[]]) (List.range metadata.length) = some q := by
  rw [atAll_range (by simp [hq.1]), ← hq.1]
  simp

/-- On a file written for a well-formed store, `showInfoDialog` shows the
fields of the first record whose field 0 is the title of the media. -/
theorem showInfoDialog_match {A B : Store} {q : QStringList}
    {live : QString → Option QString} (h : WellFormed (A ++ q :: B))
    (hq : q[0]? = some ((live "Title".toList).getD []))
    (hno : ∀ a ∈ A, a[0]? ≠ some ((live "Title".toList).getD [])) :
    showInfoDialog (some (saveText (A ++ q :: B))) live = some q := by
  unfold showInfoDialog
  simp only [← List.head?_eq_getElem?] at hq hno
  have hm : metadata.headD [] = "Title".toList := rfl
  simp only [segments_saveText h, hm]
  rw [findInBase_match h hq hno 0]
  exact atAll_written (h q (by simp))

/-- On a file written for a well-formed store with at least one record, none
with the title of the media, `showInfoDialog` shows the values of the media
object. -/
theorem showInfoDialog_nomatch {S : Store} {live : QString → Option QString}
    (h : WellFormed S) (hne : S ≠ [])
    (hno : ∀ a ∈ S, a[0]? ≠ some ((live "Title".toList).getD [])) :
    showInfoDialog (some (saveText S)) live = some (liveRecord live) := by
  unfold showInfoDialog
  simp only [← List.head?_eq_getElem?] at hno
  have hm : metadata.headD [] = "Title".toList := rfl
  simp only [segments_saveText h, hm]
  rw [findInBase_none h hno 0]
  obtain ⟨q, hq⟩ : ∃ q, S.getLast? = some q := by
    cases hS : S.getLast? with
    | none => exact absurd (List.getLast?_eq_none_iff.1 hS) hne
    | some q => exact ⟨q, rfl⟩
  have hw : WellFormedRecord q := h q (List.mem_of_getLast?_eq_some hq)
  have hl : lastProps (S.map recordText) = q ++ [[]] := by
    unfold lastProps
    rw [List.getLast?_map, hq]
    exact split_recordText (fun f hf => (hw.2 f hf).2.1)
  simp only [hl, atAll_written hw]

/-- A store with a record of a given key splits at the first such record. -/
theorem exists_first_match {S : Store} {key : Option QString}
    (h : ∃ q ∈ S, q[0]? = key) :
    ∃ A q B, S = A ++ q :: B ∧ q[0]? = key ∧ ∀ a ∈ A, a[0]? ≠ key := by
  induction S with
  | nil => simp at h
  | cons a S ih =>
    by_cases ha : a[0]? = key
    · exact ⟨[], a, S, rfl, ha, by simp⟩
    · obtain ⟨q, hq, hk⟩ := h
      have hqS : q ∈ S := by
        rcases List.mem_cons.1 hq with e | hqS
        · exact absurd (e ▸ hk) ha
        · exact hqS
      obtain ⟨A, q2, B, e, h1, h2⟩ := ih ⟨q, hqS, hk⟩
      refine ⟨a :: A, q2, B, by simp [e], h1, ?_⟩
      intro b hb
      rcases List.mem_cons.1 hb with e2 | hb
      · exact e2 ▸ ha
      · exact h2 b hb

/-! ### Lemmas on the duration label -/

theorem split_of_not_mem {sep : Char} {f : List Char} (h : sep ∉ f) : split sep f = [f] := by
  induction f with
  | nil => rfl
  | cons c f ih =>
    have hc : c ≠ sep := fun e => h (by simp [e])
    have hf : sep ∉ f := fun e => h (by simp [e])
    simp [split, hc, ih hf]

theorem readNumber_twoDigits : ∀ n < 100, readNumber (twoDigits n) = some n := by
  decide

theorem colon_not_mem_twoDigits : ∀ n < 100, ':' ∉ twoDigits n := by
  decide

theorem space_not_mem_twoDigits : ∀ n < 100, ' ' ∉ twoDigits n := by
  decide

theorem formatTime_mmss (t : QTime) :
    formatTime t "mm:ss".toList = twoDigits t.m ++ ':' :: twoDigits t.s := by
  simp [formatTime]

theorem formatTime_hhmmss (t : QTime) :
    formatTime t "hh:mm:ss".toList
      = twoDigits t.h ++ ':' :: (twoDigits t.m ++ ':' :: twoDigits t.s) := by
  simp [formatTime]

theorem afterSep_append {cur : List Char} (h : ' ' ∉ cur) (tot : List Char) :
    afterSep " / ".toList (cur ++ " / ".toList ++ tot) = some tot := by
  induction cur with
  | nil => simp [afterSep, List.isPrefixOf]
  | cons c cur ih =>
    have hc : ' ' ≠ c := fun e => h (by rw [e]; exact List.mem_cons_self _ _)
    have hcur : ' ' ∉ cur := fun e => h (by simp [e])
    have := ih hcur
    simp only [List.cons_append, afterSep] at this ⊢
    rw [if_neg (by simp [List.isPrefixOf, hc])]
    exact this

theorem readClock_two {a b : Nat} (ha : a < 100) (hb : b < 100) :
    readClock (twoDigits a ++ ':' :: twoDigits b) = some (a * 60 + b) := by
  unfold readClock
  rw [split_append_sep (colon_not_mem_twoDigits a ha),
    split_of_not_mem (colon_not_mem_twoDigits b hb)]
  simp [readNumber_twoDigits a ha, readNumber_twoDigits b hb]

theorem readClock_three {a b c : Nat} (ha : a < 100) (hb : b < 100) (hc : c < 100) :
    readClock (twoDigits a ++ ':' :: (twoDigits b ++ ':' :: twoDigits c))
      = some (a * 3600 + b * 60 + c) := by
  unfold readClock
  rw [split_append_sep (colon_not_mem_twoDigits a ha),
    split_append_sep (colon_not_mem_twoDigits b hb),
    split_of_not_mem (colon_not_mem_twoDigits c hc)]
  simp [readNumber_twoDigits a ha, readNumber_twoDigits b hb, readNumber_twoDigits c hc]

/-- The text of a time in either format of the label holds no space. -/
theorem space_not_mem_toString (t : QTime) (long : Bool) :
    ' ' ∉ t.toString (if long then "hh:mm:ss".toList else "mm:ss".toList) := by
  unfold QTime.toString
  by_cases hv : t.isValid = true
  · have hv2 := hv
    simp only [QTime.isValid, Bool.and_eq_true, decide_eq_true_eq] at hv2
    obtain ⟨⟨⟨h1, h2⟩, h3⟩, _⟩ := hv2
    have e1 := space_not_mem_twoDigits t.h (by omega)
    have e2 := space_not_mem_twoDigits t.m (by omega)
    have e3 := space_not_mem_twoDigits t.s (by omega)
    rw [if_pos hv]
    cases long
    · simp only [Bool.false_eq_true, if_false, formatTime_mmss]
      simp [e2, e3]
    · simp only [if_true, formatTime_hhmmss]
      simp [e1, e2, e3]
  · rw [if_neg hv]
    simp

/-- The seconds that the total-time part of the label denotes, for every
duration below a day: the duration itself when it is above one hour, where the
long format is used, else the duration without its whole hours. -/
theorem totalSeconds_updateDurationInfo (d c : Nat) (h0 : 0 < d) (h1 : d < 86400) :
    totalSeconds (updateDurationInfo d c) = some (if d > 3600 then d else d % 3600) := by
  unfold updateDurationInfo totalSeconds
  rw [if_pos (Or.inr (by omega))]
  have hvalid : (QTime.mk ((d / 3600) % 60) ((d / 60) % 60) (d % 60) ((d * 1000) % 1000)).isValid
      = true := by
    simp only [QTime.isValid, Bool.and_eq_true, decide_eq_true_eq]
    omega
  by_cases hd : d > 3600
  · have hs := space_not_mem_toString
      (QTime.mk ((c / 3600) % 60) ((c / 60) % 60) (c % 60) ((c * 1000) % 1000)) true
    simp only [if_true] at hs
    simp only [if_pos hd]
    rw [afterSep_append hs, Option.some_bind, QTime.toString, if_pos hvalid, formatTime_hhmmss]
    dsimp only
    rw [readClock_three (by omega) (by omega) (by omega)]
    congr 1
    omega
  · have hs := space_not_mem_toString
      (QTime.mk ((c / 3600) % 60) ((c / 60) % 60) (c % 60) ((c * 1000) % 1000)) false
    simp only [Bool.false_eq_true, if_false] at hs
    simp only [if_neg hd]
    rw [afterSep_append hs, Option.some_bind, QTime.toString, if_pos hvalid, formatTime_mmss]
    dsimp only
    rw [readClock_two (by omega) (by omega)]
    congr 1
    omega

/-- The label is faithful for every duration below a day other than one hour:
its total-time part denotes the duration. -/
theorem totalSeconds_faithful (d c : Nat) (h0 : 0 < d) (h1 : d < 86400) (h2 : d ≠ 3600) :
    totalSeconds (updateDurationInfo d c) = some d := by
  rw [totalSeconds_updateDurationInfo d c h0 h1]
  congr 1
  split_ifs with h
  · rfl
  · omega

/-! ### Lemmas on index safety -/

theorem createHTML_saveText_isSome {S : Store} (h : WellFormed S) :
    (createHTML (saveText S)).isSome = true := by
  simp [createHTML, readRecords_saveText h]

theorem saveChanges_saveText_isSome {S : Store} {r : QStringList} (h : WellFormed S)
    (hr : r.length = metadata.length) : (saveChanges (saveText S) r).isSome = true := by
  by_cases hm : ∃ q ∈ S, q[0]? = r[0]?
  · obtain ⟨A, q, B, rfl, hq, hno⟩ := exists_first_match hm
    simp only [← List.head?_eq_getElem?] at hq hno
    rw [saveChanges_match h hr hq hno]
    rfl
  · have hno : ∀ a ∈ S, a.head? ≠ r.head? := by
      intro a ha e
      exact hm ⟨a, ha, by simpa only [← List.head?_eq_getElem?] using e⟩
    rw [saveChanges_nomatch h hr hno]
    rfl

theorem showInfoDialog_saveText_isSome {S : Store} (live : QString → Option QString)
    (h : WellFormed S) (hne : S ≠ []) :
    (showInfoDialog (some (saveText S)) live).isSome = true := by
  by_cases hm : ∃ q ∈ S, q[0]? = some ((live "Title".toList).getD [])
  · obtain ⟨A, q, B, rfl, hq, hno⟩ := exists_first_match hm
    rw [showInfoDialog_match h hq hno]
    rfl
  · have hno : ∀ a ∈ S, a[0]? ≠ some ((live "Title".toList).getD []) :=
      fun a ha e => hm ⟨a, ha, e⟩
    rw [showInfoDialog_nomatch h hne hno]
    rfl

/-- The file after `saveChanges` on the file of a well-formed store, for a
well-formed edited record, is the file of a well-formed store. -/
theorem saveChanges_saveText_wellFormed {S : Store} {r : QStringList} (h : WellFormed S)
    (hr : WellFormedRecord r) :
    ∃ T, WellFormed T ∧ saveChanges (saveText S) r = some (saveText T) := by
  by_cases hm : ∃ q ∈ S, q[0]? = r[0]?
  · obtain ⟨A, q, B, rfl, hq, hno⟩ := exists_first_match hm
    simp only [← List.head?_eq_getElem?] at hq hno
    refine ⟨r :: (A ++ B), ?_, saveChanges_match h hr.1 hq hno⟩
    intro a ha
    rcases List.mem_cons.1 ha with e | ha
    · exact e ▸ hr
    · exact h a (by simp at ha ⊢; tauto)
  · have hno : ∀ a ∈ S, a.head? ≠ r.head? := by
      intro a ha e
      exact hm ⟨a, ha, by simpa only [← List.head?_eq_getElem?] using e⟩
    refine ⟨S ++ [r], ?_, saveChanges_nomatch h hr.1 hno⟩
    intro a ha
    rcases List.mem_append.1 ha with ha | ha
    · exact h a ha
    · simp at ha
      exact ha ▸ hr

/-- On the file written for a well-formed store of at least one record, no
`at` of `showInfoDialog`, of `saveChanges` and of `createHTML` reading that
file is out of range, whatever the media object and the 14 edited values. The
call of `createHTML` that ends `saveChanges` (line 578) reads the new file: it
is in range when the edited values hold no separator. -/
theorem index_safe_on_nonempty_store {S : Store} (live : QString → Option QString)
    {r : QStringList} (h : WellFormed S) (hne : S ≠ []) (hr : r.length = metadata.length) :
    (showInfoDialog (some (saveText S)) live).isSome = true ∧
      (saveChanges (saveText S) r).isSome = true ∧
      (createHTML (saveText S)).isSome = true ∧
      (WellFormedRecord r →
        ((saveChanges (saveText S) r).bind createHTML).isSome = true) := by
  refine ⟨showInfoDialog_saveText_isSome live h hne, saveChanges_saveText_isSome h hr,
    createHTML_saveText_isSome h, ?_⟩
  intro hw
  obtain ⟨T, hT, e⟩ := saveChanges_saveText_wellFormed h hw
  rw [e, Option.some_bind]
  exact createHTML_saveText_isSome hT

/-- With a slash in an edited value the call of `createHTML` that ends
`saveChanges` reads a segment of fewer than 14 parts: an `at` out of range. -/
theorem createHTML_after_save_with_slash :
    WellFormed [alienRecord] ∧ matrixSlash.length = 14 ∧
      (saveChanges (saveText [alienRecord]) matrixSlash).isSome = true ∧
      (saveChanges (saveText [alienRecord]) matrixSlash).bind createHTML = none := by
  decide

/-! ### Lemmas on reading back a record with separators in its values -/

theorem readAllLines_append_of_head {x y : List Char} (hy : y.head? ≠ some '\n') :
    readAllLines (x ++ y) = readAllLines x ++ readAllLines y := by
  induction x with
  | nil => rfl
  | cons c x ih =>
    have hh : (x ++ y).head? = some '\n' ↔ x.head? = some '\n' := by
      cases x with
      | nil => simpa using hy
      | cons d x => simp
    rw [List.cons_append, readAllLines, readAllLines]
    by_cases h1 : c = '\n'
    · rw [if_pos h1, if_pos h1, ih]
    · rw [if_neg h1, if_neg h1]
      by_cases h2 : c = '\r' ∧ x.head? = some '\n'
      · rw [if_pos ⟨h2.1, hh.2 h2.2⟩, if_pos h2, ih]
      · rw [if_neg (fun h => h2 ⟨h.1, hh.1 h.2⟩), if_neg h2, ih]
        rfl

theorem mem_of_mem_readAllLines {c : Char} {s : List Char} (h : c ∈ readAllLines s) :
    c ∈ s := by
  induction s with
  | nil => simp [readAllLines] at h
  | cons d s ih =>
    rw [readAllLines] at h
    split_ifs at h
    · exact List.mem_cons_of_mem _ (ih h)
    · exact List.mem_cons_of_mem _ (ih h)
    · rcases List.mem_cons.1 h with e | h
      · exact e ▸ List.mem_cons_self _ _
      · exact List.mem_cons_of_mem _ (ih h)

theorem newline_not_mem_readAllLines (s : List Char) : '\n' ∉ readAllLines s := by
  induction s with
  | nil => simp [readAllLines]
  | cons d s ih =>
    rw [readAllLines]
    split_ifs with h1 h2
    · exact ih
    · exact ih
    · intro h
      rcases List.mem_cons.1 h with e | h
      · exact h1 e.symm
      · exact ih h

theorem count_readAllLines {c : Char} (h1 : c ≠ '\n') (h2 : c ≠ '\r') (s : List Char) :
    (readAllLines s).count c = s.count c := by
  induction s with
  | nil => rfl
  | cons d s ih =>
    rw [readAllLines]
    split_ifs with e1 e2
    · rw [ih, List.count_cons_of_ne (fun e => h1 (e.trans e1))]
    · rw [ih, List.count_cons_of_ne (fun e => h2 (e.trans e2.1))]
    · rw [List.count_cons, List.count_cons, ih]

theorem readAllLines_eq_self {s : List Char} (h : '\n' ∉ s) : readAllLines s = s := by
  have := readAllLines_append (f := s) (g := []) h (by simp)
  simpa [readAllLines] using this

theorem length_split (sep : Char) (s : List Char) :
    (split sep s).length = s.count sep + 1 := by
  induction s with
  | nil => rfl
  | cons c s ih =>
    by_cases hc : c = sep
    · subst hc
      simp [split, ih]
    · have hc2 : ¬ (c == sep) = true := by simpa using hc
      rw [split, if_neg hc, List.count_cons, if_neg hc2, Nat.add_zero, ← ih]
      cases hs : split sep s with
      | nil => exact absurd hs (split_ne_nil sep s)
      | cons p ps => rfl

theorem mem_split {sep : Char} {s p : List Char} (h : p ∈ split sep s) :
    sep ∉ p ∧ ∀ c ∈ p, c ∈ s := by
  induction s generalizing p with
  | nil =>
    simp [split] at h
    subst h
    simp
  | cons d s ih =>
    rw [split] at h
    by_cases hd : d = sep
    · rw [if_pos hd] at h
      rcases List.mem_cons.1 h with e | h
      · subst e
        simp
      · exact ⟨(ih h).1, fun c hc => List.mem_cons_of_mem _ ((ih h).2 c hc)⟩
    · rw [if_neg hd] at h
      cases hs : split sep s with
      | nil => exact absurd hs (split_ne_nil sep s)
      | cons q qs =>
        rw [hs] at h ih
        simp only at h
        rcases List.mem_cons.1 h with e | h
        · subst e
          have hq := ih (List.mem_cons_self q qs)
          refine ⟨?_, ?_⟩
          · intro hm
            rcases List.mem_cons.1 hm with e | hm
            · exact hd e.symm
            · exact hq.1 hm
          · intro c hc
            rcases List.mem_cons.1 hc with e | hc
            · exact e ▸ List.mem_cons_self _ _
            · exact List.mem_cons_of_mem _ (hq.2 c hc)
        · have hp := ih (List.mem_cons_of_mem q h)
          exact ⟨hp.1, fun c hc => List.mem_cons_of_mem _ (hp.2 c hc)⟩

theorem length_le_count_recordText (r : QStringList) :
    r.length ≤ (recordText r).count ';' := by
  induction r with
  | nil => simp
  | cons f r ih =>
    rw [recordText_cons, List.count_append, List.count_cons_self, List.length_cons]
    omega

/-- The record read back from the text written for 14 values: it exists, has
14 fields, none with a semicolon or a line feed, made of characters written. -/
theorem readRecord_joined {r : QStringList} (hr : r.length = metadata.length) :
    ∃ u, readRecord (readAllLines (recordText r)) = some u ∧ u.length = metadata.length ∧
      ∀ f ∈ u, ';' ∉ f ∧ '\n' ∉ f ∧ ∀ c ∈ f, c ∈ recordText r := by
  have hlen : metadata.length ≤ (split ';' (readAllLines (recordText r))).length := by
    rw [length_split, count_readAllLines (by decide) (by decide), ← hr]
    have := length_le_count_recordText r
    omega
  refine ⟨(split ';' (readAllLines (recordText r))).take metadata.length,
    atAll_range hlen, by simp [hlen], ?_⟩
  intro f hf
  have hm := mem_split (List.mem_of_mem_take hf)
  refine ⟨hm.1, fun h => newline_not_mem_readAllLines _ (hm.2 _ h), ?_⟩
  exact fun c hc => mem_of_mem_readAllLines (hm.2 c hc)

theorem wellFormedRecord_joined {r u : QStringList} (hr : r.length = metadata.length)
    (hslash : ∀ f ∈ r, '/' ∉ f)
    (hu : readRecord (readAllLines (recordText r)) = some u) : WellFormedRecord u := by
  obtain ⟨v, hv, hl, hf⟩ := readRecord_joined hr
  rw [hu] at hv
  cases hv
  refine ⟨hl, fun f hfu => ⟨?_, (hf f hfu).1, (hf f hfu).2.1⟩⟩
  exact fun h => not_mem_recordText (by decide) hslash ((hf f hfu).2.2 _ h)

theorem readRecord_joined_eq {r : QStringList} (hr : r.length = metadata.length) :
    readRecord (readAllLines (recordText r))
      = some ((split ';' (readAllLines (recordText r))).take metadata.length) := by
  have hlen : metadata.length ≤ (split ';' (readAllLines (recordText r))).length := by
    rw [length_split, count_readAllLines (by decide) (by decide), ← hr]
    have := length_le_count_recordText r
    omega
  exact atAll_range hlen

theorem head?_readRecord_joined {k : QString} {rest u : QStringList}
    (hr : (k :: rest).length = metadata.length) (h1 : ';' ∉ k) (h2 : '\n' ∉ k)
    (hu : readRecord (readAllLines (recordText (k :: rest))) = some u) :
    u.head? = some k := by
  rw [readRecord_joined_eq hr] at hu
  have e : readAllLines (recordText (k :: rest))
      = k ++ ';' :: readAllLines (recordText rest) := by
    rw [recordText_cons, readAllLines_append h2 (by simp)]
    simp [readAllLines]
  rw [e, split_append_sep h1, metadata_length, List.take_succ_cons] at hu
  cases hu
  rfl

theorem readAllLines_eq_of_wellFormed {r : QStringList} (hr : WellFormedRecord r) :
    readAllLines (recordText r) = recordText r :=
  readAllLines_eq_self (not_mem_recordText (by decide) (fun f hf => (hr.2 f hf).2.2))

/-- The store read back from the file whose first record holds 14 values
without a slash and whose other records are well-formed. -/
theorem readRecords_saveText_cons {r u : QStringList} {R : Store} (hR : WellFormed R)
    (hslash : ∀ f ∈ r, '/' ∉ f)
    (hu : readRecord (readAllLines (recordText r)) = some u) :
    readRecords (saveText (r :: R)) = some (u :: R) := by
  have hs : '/' ∉ readAllLines (recordText r) :=
    fun h => not_mem_recordText (by decide) hslash (mem_of_mem_readAllLines h)
  have hv : videoListOf (saveText (r :: R))
      = readAllLines (recordText r) :: (R.map recordText ++ [[]]) := by
    unfold videoListOf
    rw [saveText_cons, readAllLines_append_of_head (by simp)]
    have e : readAllLines ('/' :: '\n' :: saveText R) = '/' :: readAllLines (saveText R) := by
      simp [readAllLines]
    rw [e, split_append_sep hs]
    have := videoListOf_saveText hR
    unfold videoListOf at this
    rw [this]
  have hseg : segments (saveText (r :: R)) = readAllLines (recordText r) :: R.map recordText := by
    unfold segments count
    rw [hv]
    simp
  unfold readRecords
  rw [hseg, forEach, hu]
  have := readRecords_saveText hR
  unfold readRecords at this
  rw [segments_saveText hR] at this
  rw [this]
  rfl

/-! ### The claims -/

set_option maxRecDepth 100000

/-- C1, as stated, fails: a store of one record of 14 fields, one of which
holds the field separator, is not the store read back from the text written
for it. -/
theorem roundTrip_fails_with_separator :
    (∀ r ∈ [matrixSemicolon], r.length = 14) ∧
      readRecords (saveText [matrixSemicolon]) ≠ some [matrixSemicolon] := by
  decide

/-- C1, amended: for every store whose records have 14 fields, none holding a
slash, a semicolon or a line feed, reading the text written for the store
gives the store back. -/
theorem roundTrip_wellFormed (S : Store) (h : WellFormed S) :
    readRecords (saveText S) = some S :=
  readRecords_saveText h

theorem roundTrip_wellFormed_witness :
    WellFormed [matrixRecord, alienRecord] ∧
      readRecords (saveText [matrixRecord, alienRecord]) = some [matrixRecord, alienRecord] :=
  ⟨by decide, roundTrip_wellFormed [matrixRecord, alienRecord] (by decide)⟩

/-- C2, as stated, fails: with a title that the store does not hold, the first
upsert appends the record and the second one moves it to the front. -/
theorem upsert_twice_differs :
    WellFormed [alienRecord] ∧ WellFormedRecord matrixRecord ∧
      (upsert [alienRecord] matrixRecord).bind (fun T => upsert T matrixRecord)
        ≠ upsert [alienRecord] matrixRecord := by
  decide

/-- C2, amended: for a store of well-formed records and a record of 14 values
without a slash. When the title of the record occurs in the store, first at
the index that is the length of `A`, the upsert gives the record read back for
the 14 values (the record itself when its values hold no semicolon and no line
feed either), followed by the other records in order, and a second upsert of
the same record gives that same store. When the record is well-formed and its
title does not occur, the first upsert appends the record and the second one
moves it to the front, so that the two stores are equal only for the empty
store. -/
theorem upsert_twice (S : Store) (r : QStringList)
    (hS : WellFormed S) (hr : r.length = metadata.length) (hslash : ∀ f ∈ r, '/' ∉ f) :
    ((∃ q ∈ S, q[0]? = r[0]?) →
      ∃ A q B u, S = A ++ q :: B ∧ q[0]? = r[0]? ∧ (∀ a ∈ A, a[0]? ≠ r[0]?) ∧
        readRecord (readAllLines (recordText r)) = some u ∧ u[0]? = r[0]? ∧
        (WellFormedRecord r → u = r) ∧
        upsert S r = some (u :: (A ++ B)) ∧
        upsert (u :: (A ++ B)) r = some (u :: (A ++ B))) ∧
    (WellFormedRecord r → (∀ q ∈ S, q[0]? ≠ r[0]?) →
      upsert S r = some (S ++ [r]) ∧ upsert (S ++ [r]) r = some (r :: S) ∧
        (S ++ [r] = r :: S ↔ S = [])) := by
  constructor
  · intro hm
    obtain ⟨A, q, B, rfl, hq, hno⟩ := exists_first_match hm
    obtain ⟨u, hu, _, _⟩ := readRecord_joined hr
    have hwu : WellFormedRecord u := wellFormedRecord_joined hr hslash hu
    have hAB : WellFormed (A ++ B) := fun a ha => hS a (by simp at ha ⊢; tauto)
    have hwq : WellFormedRecord q := hS q (by simp)
    obtain ⟨k, rest, rfl⟩ : ∃ k rest, r = k :: rest := by
      cases r with
      | nil => simp [metadata_length] at hr
      | cons k rest => exact ⟨k, rest, rfl⟩
    have hk : SepFree k := by
      apply hwq.2
      have : q[0]? = some k := by simpa using hq
      exact List.getElem?_mem this
    have huh : u.head? = some k := head?_readRecord_joined hr hk.2.1 hk.2.2 hu
    have hq2 : q.head? = (k :: rest).head? := by
      simpa only [← List.head?_eq_getElem?] using hq
    have hno2 : ∀ a ∈ A, a.head? ≠ (k :: rest).head? := by
      simpa only [← List.head?_eq_getElem?] using hno
    have hT : WellFormed ([] ++ u :: (A ++ B)) := by
      intro a ha
      rcases List.mem_cons.1 ha with e | ha
      · exact e ▸ hwu
      · exact hAB a ha
    refine ⟨A, q, B, u, rfl, hq, hno, hu, ?_, ?_, ?_, ?_⟩
    · rw [← List.head?_eq_getElem?, huh]
      simp
    · intro hw
      rw [readAllLines_eq_of_wellFormed hw, readRecord_recordText hw] at hu
      exact (Option.some.inj hu).symm
    · unfold upsert
      rw [saveChanges_match hS hr hq2 hno2, Option.some_bind]
      exact readRecords_saveText_cons hAB hslash hu
    · unfold upsert
      have := saveChanges_match (A := []) (B := A ++ B) (q := u) hT hr huh (by simp)
      rw [List.nil_append] at this
      rw [this, Option.some_bind]
      exact readRecords_saveText_cons hAB hslash hu
  · intro hw hno
    refine ⟨upsert_nomatch hS hw hno, ?_, ?_⟩
    · have hT : WellFormed (S ++ r :: []) := by
        intro a ha
        rcases List.mem_append.1 ha with ha | ha
        · exact hS a ha
        · simp at ha
          exact ha ▸ hw
      have := upsert_match (A := S) (B := []) hT hw rfl hno
      simpa using this
    · constructor
      · intro h
        cases S with
        | nil => rfl
        | cons a S =>
          exfalso
          have e : a = r := by
            have := congrArg List.head? h
            simpa using this
          exact hno a (by simp) (by rw [e])
      · rintro rfl
        rfl

theorem upsert_twice_witness :
    (∃ A q B u, [alienRecord, matrixRecord] = A ++ q :: B ∧ q[0]? = matrixSemicolon[0]? ∧
        (∀ a ∈ A, a[0]? ≠ matrixSemicolon[0]?) ∧
        readRecord (readAllLines (recordText matrixSemicolon)) = some u ∧
        u[0]? = matrixSemicolon[0]? ∧
        (WellFormedRecord matrixSemicolon → u = matrixSemicolon) ∧
        upsert [alienRecord, matrixRecord] matrixSemicolon = some (u :: (A ++ B)) ∧
        upsert (u :: (A ++ B)) matrixSemicolon = some (u :: (A ++ B))) ∧
      (upsert [alienRecord] matrixRecord = some ([alienRecord] ++ [matrixRecord]) ∧
        upsert ([alienRecord] ++ [matrixRecord]) matrixRecord
          = some (matrixRecord :: [alienRecord]) ∧
        ([alienRecord] ++ [matrixRecord] = matrixRecord :: [alienRecord]
          ↔ [alienRecord] = [])) :=
  ⟨(upsert_twice [alienRecord, matrixRecord] matrixSemicolon (by decide) (by decide)
      (by decide)).1 (by decide),
    (upsert_twice [alienRecord] matrixRecord (by decide) (by decide) (by decide)).2
      (by decide) (by decide)⟩

/-- C3, as stated, fails: the edited title matches the record at index 1 only,
and the record at index 0 of the result is not the record at index 0 of the
store. -/
theorem upsert_match_moves_record :
    ([alienRecord, matrixRecord][1]?.bind (fun q => q[0]?)) = matrixEdited[0]? ∧
      ([alienRecord, matrixRecord][0]?.bind (fun q => q[0]?)) ≠ matrixEdited[0]? ∧
      (upsert [alienRecord, matrixRecord] matrixEdited).bind (fun T => T[0]?)
        ≠ [alienRecord, matrixRecord][0]? := by
  decide

/-- C3, amended: on a match at index `k` (the length of `A`) the result has as
many records as the store, the updated record is its record 0, the records
before `k` follow one place later and the records after `k` keep their index. -/
theorem upsert_match_frame (A B : Store) (q r : QStringList)
    (hS : WellFormed (A ++ q :: B)) (hr : WellFormedRecord r)
    (hq : q[0]? = r[0]?) (hno : ∀ a ∈ A, a[0]? ≠ r[0]?) :
    ∃ T, upsert (A ++ q :: B) r = some T ∧ T.length = (A ++ q :: B).length ∧
      T[0]? = some r ∧
      (∀ i, i < A.length → T[i + 1]? = (A ++ q :: B)[i]?) ∧
      (∀ i, A.length < i → T[i]? = (A ++ q :: B)[i]?) := by
  refine ⟨r :: (A ++ B), upsert_match hS hr hq hno, by simp; omega, by simp, ?_, ?_⟩
  · intro i hi
    rw [List.getElem?_cons_succ, List.getElem?_append_left hi, List.getElem?_append_left hi]
  · intro i hi
    obtain ⟨j, rfl⟩ : ∃ j, i = A.length + 1 + j := ⟨i - (A.length + 1), by omega⟩
    rw [List.getElem?_append_right (by omega)]
    have e1 : A.length + 1 + j = (A.length + j) + 1 := by omega
    have e2 : A.length + 1 + j - A.length = j + 1 := by omega
    rw [e2, List.getElem?_cons_succ, e1, List.getElem?_cons_succ,
      List.getElem?_append_right (by omega)]
    congr 1
    omega

theorem upsert_match_frame_witness :
    ∃ T, upsert ([alienRecord] ++ matrixRecord :: [alienRecord]) matrixEdited = some T ∧
      T.length = ([alienRecord] ++ matrixRecord :: [alienRecord]).length ∧
      T[0]? = some matrixEdited ∧
      (∀ i, i < [alienRecord].length →
        T[i + 1]? = ([alienRecord] ++ matrixRecord :: [alienRecord])[i]?) ∧
      (∀ i, [alienRecord].length < i →
        T[i]? = ([alienRecord] ++ matrixRecord :: [alienRecord])[i]?) :=
  upsert_match_frame [alienRecord] [alienRecord] matrixRecord matrixEdited
    (by decide) (by decide) (by decide) (by decide)

/-- C4, as stated, fails: the title matches, and the description of the edited
record holds a semicolon; field 2 of the updated record read back from the
file is not field 2 of the edited record. -/
theorem upsert_match_splits_field :
    WellFormed [matrixRecord] ∧ matrixSemicolon.length = 14 ∧
      matrixRecord[0]? = matrixSemicolon[0]? ∧
      ((upsert [matrixRecord] matrixSemicolon).bind (fun T => T[0]?)).bind (fun u => u[2]?)
        ≠ matrixSemicolon[2]? := by
  decide

/-- C4, amended: for a well-formed store and a well-formed record whose title
matches, the updated record, record 0 of the result, has 14 fields, field 0
equal to the key of the matched record and fields 1 to 13 equal to those of the
edited record. -/
theorem upsert_match_record (A B : Store) (q r : QStringList)
    (hS : WellFormed (A ++ q :: B)) (hr : WellFormedRecord r)
    (hq : q[0]? = r[0]?) (hno : ∀ a ∈ A, a[0]? ≠ r[0]?) :
    ∃ T u, upsert (A ++ q :: B) r = some T ∧ T[0]? = some u ∧ u.length = 14 ∧
      u[0]? = q[0]? ∧ ∀ i, 1 ≤ i → i < 14 → u[i]? = r[i]? :=
  ⟨r :: (A ++ B), r, upsert_match hS hr hq hno, by simp, hr.1, hq.symm, fun _ _ _ => rfl⟩

theorem upsert_match_record_witness :
    ∃ T u, upsert ([] ++ matrixRecord :: []) matrixEdited = some T ∧ T[0]? = some u ∧
      u.length = 14 ∧ u[0]? = matrixRecord[0]? ∧
      ∀ i, 1 ≤ i → i < 14 → u[i]? = matrixEdited[i]? :=
  upsert_match_record [] [] matrixRecord matrixEdited (by decide) (by decide) (by decide)
    (by decide)

/-- C5, as stated, fails: no record of the store has the title of the new
record, whose description holds a semicolon, and the store read back is not
the store followed by the new record. -/
theorem upsert_append_splits_field :
    WellFormed [alienRecord] ∧ matrixSemicolon.length = 14 ∧
      (∀ q ∈ [alienRecord], q[0]? ≠ matrixSemicolon[0]?) ∧
      upsert [alienRecord] matrixSemicolon ≠ some ([alienRecord] ++ [matrixSemicolon]) := by
  decide

/-- C5, amended: for a well-formed store and a well-formed record whose title
no record of the store has, the store read back after `saveChanges` is the
store followed by the record: one record more, the first ones those of the
store in order, the last one the new record. -/
theorem upsert_appends (S : Store) (r : QStringList)
    (hS : WellFormed S) (hr : WellFormedRecord r) (hno : ∀ q ∈ S, q[0]? ≠ r[0]?) :
    ∃ T, upsert S r = some T ∧ T = S ++ [r] ∧ T.length = S.length + 1 ∧
      T.take S.length = S ∧ T.getLast? = some r :=
  ⟨S ++ [r], upsert_nomatch hS hr hno, rfl, by simp, by simp, by simp⟩

theorem upsert_appends_witness :
    ∃ T, upsert [alienRecord] matrixRecord = some T ∧ T = [alienRecord] ++ [matrixRecord] ∧
      T.length = [alienRecord].length + 1 ∧ T.take [alienRecord].length = [alienRecord] ∧
      T.getLast? = some matrixRecord :=
  upsert_appends [alienRecord] matrixRecord (by decide) (by decide) (by decide)

/-- C6, as stated, fails: the file whose record has 13 fields is read as a
store whose record has an empty field 13, and the file whose record has 15
fields as a store whose record has the first 14 of them. -/
theorem load_pads_and_truncates :
    readRecords thirteenFields
        = some [["a".toList, "b".toList, "c".toList, "d".toList, "e".toList, "f".toList,
            "g".toList, "h".toList, "i".toList, "j".toList, "k".toList, "l".toList,
            "m".toList, []]] ∧
      readRecords fifteenFields
        = some [["a".toList, "b".toList, "c".toList, "d".toList, "e".toList, "f".toList,
            "g".toList, "h".toList, "i".toList, "j".toList, "k".toList, "l".toList,
            "m".toList, "n".toList]] := by
  decide

/-- C6, amended: reading checks no field count. Whenever every record segment
splits on the semicolon into at least 14 parts, reading gives a store, whose
records are the first 14 parts of each segment. -/
theorem readRecords_takes_first_parts (text : List Char)
    (h : ∀ segment ∈ segments text, metadata.length ≤ (split ';' segment).length) :
    readRecords text
      = some ((segments text).map (fun segment => (split ';' segment).take metadata.length)) :=
  forEach_some (fun segment hs => atAll_range (h segment hs))

theorem readRecords_takes_first_parts_witness :
    readRecords fifteenFields
      = some ((segments fifteenFields).map
          (fun segment => (split ';' segment).take metadata.length)) :=
  readRecords_takes_first_parts fifteenFields (by decide)

/-- C7, failing input: when `DataQt.txt` exists and holds no record, no
segment is scanned, `videoProps` stays empty and the read `videoProps.at(0)`
that fills the table is out of range, whatever the media object. When the
file does not exist the values of the media object are shown, and on a file
of two records the first record of the title is shown. -/
theorem showInfoDialog_empty_file (live : QString → Option QString) :
    showInfoDialog (some []) live = none ∧
      showInfoDialog none live = some (liveRecord live) ∧
      showInfoDialog (some (saveText [alienRecord, matrixRecord, matrixEdited])) matrixPlaying
        = some matrixRecord :=
  ⟨rfl, rfl, by decide⟩

/-- C8, failing input: the report for the empty file holds two opening row
tags and no closing one; the report for a file of two records holds two
opening and two closing row tags. -/
theorem createHTML_row_tags :
    (createHTML []).map (countOcc "<tr>".toList) = some 2 ∧
      (createHTML []).map (countOcc "</tr>".toList) = some 0 ∧
      (createHTML (saveText [matrixRecord, alienRecord])).map (countOcc "<tr>".toList)
        = some 2 ∧
      (createHTML (saveText [matrixRecord, alienRecord])).map (countOcc "</tr>".toList)
        = some 2 := by
  decide

/-- C9, failing input: the header cells of the report for the empty file; the
eleventh is `Copytight`, so they are not the names of the catalog. -/
theorem createHTML_header_cells :
    (createHTML []).map (cellsAfter "<th>".toList)
        = some ["Title".toList, "Author".toList, "Description".toList, "Genre".toList,
            "Year".toList, "Date".toList, "UserRating".toList, "Language".toList,
            "Director".toList, "Writer".toList, "Copytight".toList, "Size".toList,
            "MediaType".toList, "Duration".toList] ∧
      (createHTML []).map (cellsAfter "<th>".toList) ≠ some metadata := by
  decide

/-- C10: the record built from the media object, shown when the file does not
exist or holds no record of the title, has one value per catalog name in
catalog order: the value of the media object when present and not empty, else
the text `null`; without a `Director` tag the value at index 8 is `null`. -/
theorem liveRecord_spec (live : QString → Option QString) :
    showInfoDialog none live = some (liveRecord live) ∧
      (liveRecord live).length = metadata.length ∧
      liveRecord live = metadata.map (fun name =>
        match live name with
        | some v => if v = [] then "null".toList else v
        | none => "null".toList) ∧
      metadata[8]? = some "Director".toList ∧
      (liveRecord noDirector)[8]? = some "null".toList ∧
      showInfoDialog (some (saveText [alienRecord])) noDirector
        = some (liveRecord noDirector) := by
  refine ⟨rfl, by simp [liveRecord], ?_, by decide, by decide, by decide⟩
  unfold liveRecord
  congr 1
  funext name
  unfold liveValue
  cases live name with
  | none => simp
  | some v => cases v <;> simp

/-- C11, failing input: the empty file is the file of zero records. On it
`showInfoDialog` reads `videoProps.at(0)` on the empty list, whatever the media
object, while `createHTML` and `saveChanges` make no access out of range; a
file of line breaks only behaves the same. -/
theorem index_unsafe_on_empty_file (live : QString → Option QString) :
    saveText ([] : Store) = [] ∧
      showInfoDialog (some (saveText [])) live = none ∧
      showInfoDialog (some "\n\n".toList) live = none ∧
      (createHTML (saveText [])).isSome = true ∧
      (saveChanges (saveText []) matrixRecord).isSome = true :=
  ⟨rfl, rfl, rfl, by decide, by decide⟩

/-- C12, failing input: for a duration of one hour, 3600000 milliseconds, the
short format is chosen, the label is `00:00 / 00:00` at position 0 and its
total-time part denotes 0 seconds at every position. -/
theorem duration_label_one_hour (c : Nat) :
    durationChanged 3600000 = 3600 ∧
      updateDurationInfo (durationChanged 3600000) 0 = "00:00 / 00:00".toList ∧
      totalSeconds (updateDurationInfo (durationChanged 3600000) c) = some 0 :=
  ⟨by decide, by decide, totalSeconds_updateDurationInfo 3600 c (by decide) (by decide)⟩

end Player
